import Mathlib

/-!
Verification of the impurity / split-criterion logic of `src/tree/mod.rs`
(smartcore decision-tree module).

The Rust module declares an enum `SplitCriterion` and a function

  fn impurity(criterion: &SplitCriterion, count: &[usize], n: usize) -> f64

which matches on the criterion and computes the Gini index, the entropy,
the classification error, or the MSE of a slice of counts / values.
We embed the counts as `List ℕ` (usize values, exact arithmetic) and the
f64 computation as exact real arithmetic.
-/

namespace Smartcore

/-- The `SplitCriterion` enum exactly as *declared* in `src/tree/mod.rs`
(lines 28–38): it lists only the three variants `Gini`, `Entropy` and
`ClassificationError`. -/
inductive SplitCriterionDecl where
  | Gini
  | Entropy
  | ClassificationError
  deriving DecidableEq, Fintype

/-- The criterion type that the *body* of `impurity` (lines 40–78) requires:
its `match` has four arms, `Gini`, `Entropy`, `ClassificationError` and
`SplitCriterion::MSE`, so the function only type-checks against an enum with
these four variants (the declared enum omits `MSE`; see the analysis of that
discrepancy below). -/
inductive SplitCriterion where
  | Gini
  | Entropy
  | ClassificationError
  | MSE
  deriving DecidableEq, Fintype

open SplitCriterion

/-- Shallow embedding of `fn impurity(criterion, count, n) -> f64` from
`src/tree/mod.rs`, arm by arm:

* `Gini`: start from `1.0`; for every `count_i > 0` subtract `p * p` with
  `p = count_i / n`.
* `Entropy`: start from `0.0`; for every `count_i > 0` subtract
  `p * p.log2()`.
* `ClassificationError`: fold `impurity.max(count_i / n)` over the entries
  with `count_i > 0` starting from `0.0`, then return `(1.0 - impurity).abs()`.
* `MSE`: `square_sum_total / n - mean * mean` where `square_sum_total` is the
  `usize` sum of `x * x` over the slice and `mean` is the `f64` quotient of
  the `usize` sum by `n`.

`usize` arithmetic is modelled exactly on `ℕ` and the `f64` arithmetic
exactly on `ℝ`. -/
noncomputable def impurity (criterion : SplitCriterion) (count : List ℕ) (n : ℕ) : ℝ :=
  match criterion with
  | Gini =>
      count.foldl
        (fun (acc : ℝ) (c : ℕ) =>
          if 0 < c then acc - ((c : ℝ) / (n : ℝ)) * ((c : ℝ) / (n : ℝ)) else acc)
        1
  | Entropy =>
      count.foldl
        (fun (acc : ℝ) (c : ℕ) =>
          if 0 < c then acc - ((c : ℝ) / (n : ℝ)) * Real.logb 2 ((c : ℝ) / (n : ℝ)) else acc)
        0
  | ClassificationError =>
      |1 - count.foldl
        (fun (acc : ℝ) (c : ℕ) => if 0 < c then max acc ((c : ℝ) / (n : ℝ)) else acc)
        0|
  | MSE =>
      let square_sum_total : ℕ := (count.map (fun x => x * x)).sum
      let mean : ℝ := (count.sum : ℝ) / (n : ℝ)
      (square_sum_total : ℝ) / (n : ℝ) - mean * mean

/-- Number of non-zero entries of a count slice: the number of classes that
actually occur in the region. -/
def nonzeroCount (l : List ℕ) : ℕ :=
  l.countP (fun c => decide (0 < c))

/-- Largest entry of a count slice (`0` for the empty slice). -/
def listMax (l : List ℕ) : ℕ :=
  l.foldr max 0

/-- `counts` attains the maximal impurity value of `crit` among all
distributions of `n` samples into `k` classes. -/
noncomputable def AttainsMax (crit : SplitCriterion) (k n : ℕ) (counts : List ℕ) : Prop :=
  ∀ counts' : List ℕ, counts'.length = k → counts'.sum = n →
    impurity crit counts' n ≤ impurity crit counts n

/-- Pointwise gap used in the Gibbs argument for the entropy maximum: for a
class with count `c` out of `n = k·m` samples, the amount by which the bound
`(1/k - p)/ln 2` exceeds the (negated) entropy contribution of that class. -/
noncomputable def entropyGap (k n : ℕ) (c : ℕ) : ℝ :=
  (1 / (k : ℝ) - (c : ℝ) / (n : ℝ)) / Real.log 2
    + (if 0 < c then ((c : ℝ) / (n : ℝ)) * Real.logb 2 ((c : ℝ) / (n : ℝ)) else 0)
    + ((c : ℝ) / (n : ℝ)) * Real.logb 2 (k : ℝ)

/-! ### Generic fold lemmas -/

/-- A guarded subtracting fold is the initial value minus the guarded sum. -/
theorem foldl_sub_guard (f : ℕ → ℝ) (l : List ℕ) (a : ℝ) :
    l.foldl (fun acc c => if 0 < c then acc - f c else acc) a
      = a - (l.map (fun c => if 0 < c then f c else 0)).sum := by
  induction l generalizing a with
  | nil => simp
  | cons x xs ih =>
      by_cases hx : 0 < x <;> simp [hx, ih, sub_sub]

/-- A guarded max fold over nonnegative values, with nonnegative seed,
computes the max of the seed with the casted list maximum divided by `n`. -/
theorem foldl_max_guard (l : List ℕ) (n : ℕ) (a : ℝ) (ha : 0 ≤ a) :
    l.foldl (fun (acc : ℝ) (c : ℕ) => if 0 < c then max acc ((c : ℝ) / (n : ℝ)) else acc) a
      = max a ((listMax l : ℝ) / (n : ℝ)) := by
  induction l generalizing a with
  | nil =>
      simp [listMax, max_eq_left, ha]
  | cons x xs ih =>
      by_cases hx : 0 < x
      · have hmax : 0 ≤ max a ((x : ℝ) / (n : ℝ)) :=
          le_trans ha (le_max_left _ _)
        rw [List.foldl_cons, if_pos hx, ih _ hmax]
        have hcast : ((listMax (x :: xs) : ℕ) : ℝ) = max (x : ℝ) (listMax xs : ℝ) := by
          simp [listMax, Nat.cast_max]
        rw [hcast, max_assoc]
        congr 1
        exact max_div_div_right (by positivity : (0 : ℝ) ≤ n) _ _
      · have hx0 : x = 0 := Nat.eq_zero_of_not_pos hx
        subst hx0
        rw [List.foldl_cons, if_neg hx, ih _ ha]
        simp [listMax]

/-! ### Closed forms for the four arms of `impurity` -/

theorem impurity_gini_eq (count : List ℕ) (n : ℕ) :
    impurity Gini count n
      = 1 - (count.map
          (fun (c : ℕ) => if 0 < c then ((c : ℝ) / (n : ℝ)) * ((c : ℝ) / (n : ℝ)) else 0)).sum := by
  simpa [impurity] using
    foldl_sub_guard (fun c => ((c : ℝ) / (n : ℝ)) * ((c : ℝ) / (n : ℝ))) count 1

theorem impurity_entropy_eq (count : List ℕ) (n : ℕ) :
    impurity Entropy count n
      = -(count.map
          (fun (c : ℕ) =>
            if 0 < c then ((c : ℝ) / (n : ℝ)) * Real.logb 2 ((c : ℝ) / (n : ℝ)) else 0)).sum := by
  simpa [impurity] using
    foldl_sub_guard (fun c => ((c : ℝ) / (n : ℝ)) * Real.logb 2 ((c : ℝ) / (n : ℝ))) count 0

theorem impurity_ce_eq (count : List ℕ) (n : ℕ) :
    impurity ClassificationError count n = |1 - (listMax count : ℝ) / (n : ℝ)| := by
  have h := foldl_max_guard count n 0 le_rfl
  have hmax : max (0 : ℝ) ((listMax count : ℝ) / (n : ℝ)) = (listMax count : ℝ) / (n : ℝ) :=
    max_eq_right (by positivity)
  simp only [impurity]
  rw [h, hmax]

theorem impurity_mse_eq (count : List ℕ) (n : ℕ) :
    impurity MSE count n
      = (((count.map (fun x => x * x)).sum : ℕ) : ℝ) / (n : ℝ)
        - ((count.sum : ℝ) / (n : ℝ)) * ((count.sum : ℝ) / (n : ℝ)) := rfl

/-! ### Arithmetic helper lemmas on count lists -/

theorem nonzeroCount_cons (x : ℕ) (xs : List ℕ) :
    nonzeroCount (x :: xs) = (if 0 < x then 1 else 0) + nonzeroCount xs := by
  by_cases hx : 0 < x <;> simp [nonzeroCount, List.countP_cons, hx] <;> omega

theorem nonzeroCount_eq_zero_iff (l : List ℕ) :
    nonzeroCount l = 0 ↔ ∀ c ∈ l, c = 0 := by
  induction l with
  | nil => simp [nonzeroCount]
  | cons x xs ih =>
      rw [nonzeroCount_cons]
      by_cases hx : 0 < x <;> simp [hx, ih] <;> omega

theorem nat_sum_eq_zero_iff (l : List ℕ) : l.sum = 0 ↔ ∀ c ∈ l, c = 0 := by
  induction l with
  | nil => simp
  | cons x xs ih => simp [ih]

theorem nonzeroCount_pos_of_sum_pos (l : List ℕ) (h : 0 < l.sum) : 0 < nonzeroCount l := by
  rcases Nat.eq_zero_or_pos (nonzeroCount l) with h0 | h0
  · exfalso
    have hall := (nonzeroCount_eq_zero_iff l).mp h0
    have : l.sum = 0 := (nat_sum_eq_zero_iff l).mpr hall
    omega
  · exact h0

/-- If exactly one entry of `l` is non-zero, the sum of `l` is that entry. -/
theorem sum_of_one_nonzero (l : List ℕ) (h : nonzeroCount l = 1) :
    ∃ c ∈ l, 0 < c ∧ l.sum = c := by
  induction l with
  | nil => simp [nonzeroCount] at h
  | cons x xs ih =>
      rw [nonzeroCount_cons] at h
      by_cases hx : 0 < x
      · rw [if_pos hx] at h
        have hxs : nonzeroCount xs = 0 := by omega
        have hall := (nonzeroCount_eq_zero_iff xs).mp hxs
        have hsum : xs.sum = 0 := (nat_sum_eq_zero_iff xs).mpr hall
        exact ⟨x, List.mem_cons_self x xs, hx, by simp [hsum]⟩
      · rw [if_neg hx] at h
        have h' : nonzeroCount xs = 1 := by omega
        obtain ⟨c, hc, hcpos, hcsum⟩ := ih h'
        have hx0 : x = 0 := by omega
        exact ⟨c, List.mem_cons_of_mem x hc, hcpos, by simp [hx0, hcsum]⟩

/-- Sum of squares of the entries is at most the square of the sum. -/
theorem sq_sum_le (l : List ℕ) : (l.map (fun c => c * c)).sum ≤ l.sum * l.sum := by
  induction l with
  | nil => simp
  | cons x xs ih =>
      simp only [List.map_cons, List.sum_cons]
      have : (x + xs.sum) * (x + xs.sum)
          = x * x + (2 * x * xs.sum + xs.sum * xs.sum) := by ring
      rw [this]
      omega

/-- Equality holds in `sq_sum_le` exactly when at most one entry is non-zero. -/
theorem sq_sum_eq_iff (l : List ℕ) :
    (l.map (fun c => c * c)).sum = l.sum * l.sum ↔ nonzeroCount l ≤ 1 := by
  induction l with
  | nil => simp [nonzeroCount]
  | cons x xs ih =>
      simp only [List.map_cons, List.sum_cons]
      have hexp : (x + xs.sum) * (x + xs.sum)
          = x * x + (2 * x * xs.sum + xs.sum * xs.sum) := by ring
      rw [hexp, nonzeroCount_cons]
      have hle := sq_sum_le xs
      by_cases hx : 0 < x
      · rw [if_pos hx]
        constructor
        · intro heq
          have hA : 2 * x * xs.sum = 0 := by omega
          have hs0 : xs.sum = 0 := by
            rcases Nat.mul_eq_zero.mp hA with h' | h'
            · omega
            · exact h'
          have hz : nonzeroCount xs = 0 := by
            rw [nonzeroCount_eq_zero_iff]
            exact (nat_sum_eq_zero_iff xs).mp hs0
          omega
        · intro hcount
          have hz : nonzeroCount xs = 0 := by omega
          have hs0 : xs.sum = 0 :=
            (nat_sum_eq_zero_iff xs).mpr ((nonzeroCount_eq_zero_iff xs).mp hz)
          have hsq0 : (xs.map (fun c => c * c)).sum = 0 := by
            rw [hs0] at hle; omega
          rw [hs0, hsq0]
          ring
      · rw [if_neg hx]
        have hx0 : x = 0 := by omega
        subst hx0
        simpa using ih

/-- The largest entry is at most the sum of the entries. -/
theorem listMax_le_sum (l : List ℕ) : listMax l ≤ l.sum := by
  induction l with
  | nil => simp [listMax]
  | cons x xs ih =>
      simp only [listMax, List.foldr_cons, List.sum_cons] at *
      omega

theorem listMax_eq_zero_iff (l : List ℕ) : listMax l = 0 ↔ ∀ c ∈ l, c = 0 := by
  induction l with
  | nil => simp [listMax]
  | cons x xs ih =>
      simp only [listMax, List.foldr_cons] at *
      constructor
      · intro h
        have hx : x = 0 := by omega
        have hxs : List.foldr max 0 xs = 0 := by omega
        intro c hc
        rcases List.mem_cons.mp hc with rfl | hc
        · exact hx
        · exact ih.mp hxs c hc
      · intro h
        have hx : x = 0 := h x (List.mem_cons_self x xs)
        have hxs : List.foldr max 0 xs = 0 := ih.mpr (fun c hc => h c (List.mem_cons_of_mem x hc))
        omega

/-- Some entry of `l` realizes the list maximum, provided the maximum is positive. -/
theorem exists_eq_listMax (l : List ℕ) (h : 0 < listMax l) : listMax l ∈ l := by
  induction l with
  | nil => simp [listMax] at h
  | cons x xs ih =>
      simp only [listMax, List.foldr_cons] at *
      rcases Nat.le_total x (List.foldr max 0 xs) with hle | hle
      · rw [max_eq_right hle] at h ⊢
        exact List.mem_cons_of_mem x (ih h)
      · rw [max_eq_left hle] at h ⊢
        exact List.mem_cons_self x xs

/-- Every entry is at most the list maximum. -/
theorem le_listMax (l : List ℕ) (c : ℕ) (hc : c ∈ l) : c ≤ listMax l := by
  induction l with
  | nil => simp at hc
  | cons x xs ih =>
      simp only [listMax, List.foldr_cons]
      rcases List.mem_cons.mp hc with rfl | hc
      · exact le_max_left _ _
      · exact le_trans (ih hc) (le_max_right _ _)

/-! ### Cast bridges between the ℕ-level sums and the ℝ-level formulas -/

theorem cast_sq_sum (l : List ℕ) :
    (((l.map (fun c => c * c)).sum : ℕ) : ℝ) = (l.map (fun (c : ℕ) => ((c : ℝ)) ^ 2)).sum := by
  induction l with
  | nil => simp
  | cons x xs ih =>
      simp only [List.map_cons, List.sum_cons, Nat.cast_add, ih]
      push_cast
      ring

theorem sum_map_sq_div (l : List ℕ) (n : ℕ) :
    (l.map (fun (c : ℕ) => ((c : ℝ) / (n : ℝ)) ^ 2)).sum
      = (((l.map (fun c => c * c)).sum : ℕ) : ℝ) / ((n : ℝ)) ^ 2 := by
  induction l with
  | nil => simp
  | cons x xs ih =>
      simp only [List.map_cons, List.sum_cons, ih]
      push_cast
      rw [div_pow]
      ring

theorem gini_guard_eq_sq (n : ℕ) :
    (fun (c : ℕ) => if 0 < c then ((c : ℝ) / (n : ℝ)) * ((c : ℝ) / (n : ℝ)) else 0)
      = fun (c : ℕ) => ((c : ℝ) / (n : ℝ)) ^ 2 := by
  funext c
  by_cases hc : 0 < c
  · simp [hc, sq]
  · have : c = 0 := by omega
    simp [this]

/-! ### C1: the Gini arm computes `1 - Σ (counts[i]/n)²` and is 0 on pure regions -/

/-- C1: for every counts list and every `n > 0`, `impurity(Gini, counts, n)`
equals `1 - Σ_i (counts[i]/n)²` where the sum ranges over all entries (zero
entries contribute 0), and the result is 0 when all samples belong to one
class (`Σ counts = n` and exactly one entry is non-zero). -/
theorem gini_impurity_formula (counts : List ℕ) (n : ℕ) (hn : 0 < n) :
    impurity Gini counts n = 1 - (counts.map (fun (c : ℕ) => ((c : ℝ) / (n : ℝ)) ^ 2)).sum
    ∧ (counts.sum = n → nonzeroCount counts = 1 → impurity Gini counts n = 0) := by
  have hform : impurity Gini counts n
      = 1 - (counts.map (fun (c : ℕ) => ((c : ℝ) / (n : ℝ)) ^ 2)).sum := by
    rw [impurity_gini_eq, gini_guard_eq_sq]
  refine ⟨hform, fun hsum hone => ?_⟩
  have hsq : (counts.map (fun c => c * c)).sum = counts.sum * counts.sum :=
    (sq_sum_eq_iff counts).mpr (by omega)
  have hn' : ((n : ℝ)) ≠ 0 := Nat.cast_ne_zero.mpr (by omega)
  rw [hform, sum_map_sq_div, hsq, hsum]
  push_cast
  field_simp
  ring

/-- Witness for C1 at `counts = [5]`, `n = 5`. -/
theorem gini_impurity_formula_witness :
    (0 : ℕ) < 5
    ∧ (impurity Gini [5] 5 = 1 - (([5] : List ℕ).map (fun (c : ℕ) => ((c : ℝ) / (5 : ℝ)) ^ 2)).sum
       ∧ (([5] : List ℕ).sum = 5 → nonzeroCount [5] = 1 → impurity Gini [5] 5 = 0)) :=
  ⟨by norm_num, gini_impurity_formula [5] 5 (by norm_num)⟩

/-! ### C2: the Entropy arm computes `-Σ p_i log2 p_i` with zero terms dropped -/

/-- C2: for every counts list and every `n > 0`, `impurity(Entropy, counts, n)`
equals `-Σ_i p_i·log2(p_i)` with `p_i = counts[i]/n`, where each term with
`p_i = 0` (i.e. `counts[i] = 0`) contributes 0, so `log2` is never taken at 0. -/
theorem entropy_impurity_formula (counts : List ℕ) (n : ℕ) (hn : 0 < n) :
    impurity Entropy counts n
      = -(counts.map
          (fun (c : ℕ) =>
            if c = 0 then 0 else ((c : ℝ) / (n : ℝ)) * Real.logb 2 ((c : ℝ) / (n : ℝ)))).sum := by
  rw [impurity_entropy_eq]
  have hfun :
      (fun (c : ℕ) =>
        if 0 < c then ((c : ℝ) / (n : ℝ)) * Real.logb 2 ((c : ℝ) / (n : ℝ)) else 0)
      = fun (c : ℕ) =>
        if c = 0 then 0 else ((c : ℝ) / (n : ℝ)) * Real.logb 2 ((c : ℝ) / (n : ℝ)) := by
    funext c
    by_cases hc : c = 0
    · simp [hc]
    · simp [hc, Nat.pos_of_ne_zero hc]
  rw [hfun]

/-- Witness for C2 at `counts = [1, 1]`, `n = 2`. -/
theorem entropy_impurity_formula_witness :
    (0 : ℕ) < 2
    ∧ impurity Entropy [1, 1] 2
      = -(([1, 1] : List ℕ).map
          (fun (c : ℕ) =>
            if c = 0 then 0 else ((c : ℝ) / (2 : ℝ)) * Real.logb 2 ((c : ℝ) / (2 : ℝ)))).sum :=
  ⟨by norm_num, entropy_impurity_formula [1, 1] 2 (by norm_num)⟩

/-! ### C3: the ClassificationError arm computes `|1 - max_i p_i|` -/

/-- C3: for every counts list and every `n > 0`,
`impurity(ClassificationError, counts, n)` equals `|1 - max_i(counts[i]/n)|`,
and for a non-empty distribution (some entry positive, `Σ counts = n`) it
equals `1 - max_i(p_i)` and is non-negative. -/
theorem classification_error_formula (counts : List ℕ) (n : ℕ) (hn : 0 < n) :
    impurity ClassificationError counts n = |1 - (listMax counts : ℝ) / (n : ℝ)|
    ∧ ((∃ c ∈ counts, 0 < c) → counts.sum = n →
        impurity ClassificationError counts n = 1 - (listMax counts : ℝ) / (n : ℝ)
        ∧ 0 ≤ impurity ClassificationError counts n) := by
  refine ⟨impurity_ce_eq counts n, fun _ hsum => ?_⟩
  have hM : listMax counts ≤ n := by
    have := listMax_le_sum counts
    omega
  have hn' : (0 : ℝ) < (n : ℝ) := by exact_mod_cast hn
  have hle : (listMax counts : ℝ) / (n : ℝ) ≤ 1 := by
    rw [div_le_one hn']
    exact_mod_cast hM
  have habs : impurity ClassificationError counts n
      = 1 - (listMax counts : ℝ) / (n : ℝ) := by
    rw [impurity_ce_eq, abs_of_nonneg (by linarith)]
  exact ⟨habs, by rw [habs]; linarith⟩

/-- Witness for C3 at `counts = [3, 2]`, `n = 5`. -/
theorem classification_error_formula_witness :
    (0 : ℕ) < 5
    ∧ (impurity ClassificationError [3, 2] 5 = |1 - (listMax [3, 2] : ℝ) / (5 : ℝ)|
       ∧ ((∃ c ∈ ([3, 2] : List ℕ), 0 < c) → ([3, 2] : List ℕ).sum = 5 →
           impurity ClassificationError [3, 2] 5 = 1 - (listMax [3, 2] : ℝ) / (5 : ℝ)
           ∧ 0 ≤ impurity ClassificationError [3, 2] 5)) :=
  ⟨by norm_num, classification_error_formula [3, 2] 5 (by norm_num)⟩

/-! ### C4: the MSE arm computes `Σx²/n - (Σx/n)²` -/

/-- C4: for every value list `xs` (the counts argument) and every `n > 0`,
`impurity(MSE, xs, n)` equals `(Σ_i xs[i]²)/n - ((Σ_i xs[i])/n)²`. -/
theorem mse_impurity_formula (xs : List ℕ) (n : ℕ) (hn : 0 < n) :
    impurity MSE xs n
      = (xs.map (fun (x : ℕ) => ((x : ℝ)) ^ 2)).sum / (n : ℝ)
        - ((xs.sum : ℝ) / (n : ℝ)) ^ 2 := by
  rw [impurity_mse_eq, cast_sq_sum]
  ring

/-- Witness for C4 at `xs = [1, 2]`, `n = 2`. -/
theorem mse_impurity_formula_witness :
    (0 : ℕ) < 2
    ∧ impurity MSE [1, 2] 2
      = (([1, 2] : List ℕ).map (fun (x : ℕ) => ((x : ℝ)) ^ 2)).sum / (2 : ℝ)
        - ((([1, 2] : List ℕ).sum : ℝ) / (2 : ℝ)) ^ 2 :=
  ⟨by norm_num, mse_impurity_formula [1, 2] 2 (by norm_num)⟩

/-! ### C5: the enum declaration and the `impurity` match disagree on `MSE` -/

/-- C5 (code bug): the `SplitCriterion` enum as *declared* has exactly three
variants (`Gini`, `Entropy`, `ClassificationError`), while the `match` inside
`impurity` handles four (`MSE` included) — the module is internally
inconsistent, so the claim that the enumeration has exactly the four variants
handled by `impurity` fails on the declaration. -/
theorem splitCriterion_variant_mismatch :
    Fintype.card SplitCriterionDecl = 3 ∧ Fintype.card SplitCriterion = 4 := by
  constructor <;> rfl

/-! ### C6: MSE non-negativity requires `n` to be the length of the list -/

/-- C6 counterexample: with `xs = [1, 1]` and `n = 1 > 0` the MSE arm returns
`2/1 - (2/1)² = -2 < 0`, so the claim as stated (every `xs`, every `n > 0`)
is false. -/
theorem mse_neg_counterexample : impurity MSE [1, 1] 1 < 0 := by
  rw [impurity_mse_eq]
  norm_num

/-- Variance identity: `Σ (x - μ)² = Σ x² - 2μ Σ x + |l| μ²` for a real list. -/
theorem sum_sq_sub_mul (l : List ℝ) (μ : ℝ) :
    (l.map (fun x => (x - μ) ^ 2)).sum
      = (l.map (fun x => x ^ 2)).sum - 2 * μ * l.sum + (l.length : ℝ) * μ ^ 2 := by
  induction l with
  | nil => simp
  | cons x xs ih =>
      simp only [List.map_cons, List.sum_cons, List.length_cons, ih]
      push_cast
      ring

/-- C6 amended: when `n` is the number of values (the length of `xs`) and is
positive, the MSE arm is non-negative in exact arithmetic. -/
theorem mse_nonneg_of_length (xs : List ℕ) (h : 0 < xs.length) :
    0 ≤ impurity MSE xs xs.length := by
  have hL : (0 : ℝ) < (xs.length : ℝ) := by exact_mod_cast h
  set μ : ℝ := ((xs.sum : ℝ)) / (xs.length : ℝ) with hμ
  have hnn : 0 ≤ ((xs.map (fun (c : ℕ) => (c : ℝ))).map (fun x => (x - μ) ^ 2)).sum := by
    apply List.sum_nonneg
    intro x hx
    obtain ⟨y, _, rfl⟩ := List.mem_map.mp hx
    positivity
  rw [sum_sq_sub_mul] at hnn
  have hmapsum : ((xs.map (fun (c : ℕ) => (c : ℝ))).sum) = (xs.sum : ℝ) := by
    rw [Nat.cast_list_sum]
  have hmaplen : (((xs.map (fun (c : ℕ) => (c : ℝ))).length : ℕ) : ℝ) = (xs.length : ℝ) := by
    rw [List.length_map]
  have hmapsq : ((xs.map (fun (c : ℕ) => (c : ℝ))).map (fun x => x ^ 2)).sum
      = (xs.map (fun (x : ℕ) => ((x : ℝ)) ^ 2)).sum := by
    rw [List.map_map]
    rfl
  rw [hmapsum, hmaplen, hmapsq] at hnn
  have hsum_eq : (xs.sum : ℝ) = (xs.length : ℝ) * μ := by
    rw [hμ, mul_div_cancel₀ _ (ne_of_gt hL)]
  rw [mse_impurity_formula xs xs.length h, ← hμ]
  have hkey : 0 ≤ (xs.map (fun (x : ℕ) => ((x : ℝ)) ^ 2)).sum - (xs.length : ℝ) * μ ^ 2 := by
    rw [hsum_eq] at hnn
    nlinarith
  calc (0 : ℝ)
      ≤ ((xs.map (fun (x : ℕ) => ((x : ℝ)) ^ 2)).sum - (xs.length : ℝ) * μ ^ 2)
        / (xs.length : ℝ) := div_nonneg hkey (le_of_lt hL)
    _ = (xs.map (fun (x : ℕ) => ((x : ℝ)) ^ 2)).sum / (xs.length : ℝ)
        - ((xs.length : ℝ) * μ ^ 2) / (xs.length : ℝ) := sub_div _ _ _
    _ = (xs.map (fun (x : ℕ) => ((x : ℝ)) ^ 2)).sum / (xs.length : ℝ) - μ ^ 2 := by
        rw [mul_div_cancel_left₀ _ (ne_of_gt hL)]

/-- Witness for the amended C6 at `xs = [1, 2]`. -/
theorem mse_nonneg_of_length_witness :
    (0 : ℕ) < ([1, 2] : List ℕ).length ∧ 0 ≤ impurity MSE [1, 2] ([1, 2] : List ℕ).length :=
  ⟨by norm_num, mse_nonneg_of_length [1, 2] (by norm_num)⟩

/-! ### C8: MSE of a constant region is exactly 0 -/

/-- C8: for every value `v` and every `k > 0`, the MSE arm on `v` repeated
`k` times with `n = k` is exactly 0. -/
theorem mse_constant_region_eq_zero (v k : ℕ) (hk : 0 < k) :
    impurity MSE (List.replicate k v) k = 0 := by
  rw [impurity_mse_eq]
  have hk' : ((k : ℝ)) ≠ 0 := Nat.cast_ne_zero.mpr (by omega)
  simp only [List.map_replicate, List.sum_replicate, smul_eq_mul]
  push_cast
  field_simp

/-- Witness for C8 at `v = 3`, `k = 2`. -/
theorem mse_constant_region_eq_zero_witness :
    (0 : ℕ) < 2 ∧ impurity MSE (List.replicate 2 3) 2 = 0 :=
  ⟨by norm_num, mse_constant_region_eq_zero 3 2 (by norm_num)⟩

/-! ### C10: behaviour on the all-zero distribution -/

/-- C10: on a counts list whose entries are all zero, for every `n`, the Gini
arm returns 1, the Entropy arm returns 0 and the ClassificationError arm
returns 1. -/
theorem impurity_empty_distribution (counts : List ℕ) (n : ℕ) (h : ∀ c ∈ counts, c = 0) :
    impurity Gini counts n = 1
    ∧ impurity Entropy counts n = 0
    ∧ impurity ClassificationError counts n = 1 := by
  have hzero : ∀ f : ℕ → ℝ, (counts.map (fun (c : ℕ) => if 0 < c then f c else 0)).sum = 0 := by
    intro f
    apply List.sum_eq_zero
    intro x hx
    obtain ⟨c, hc, rfl⟩ := List.mem_map.mp hx
    have hc0 : c = 0 := h c hc
    simp [hc0]
  refine ⟨?_, ?_, ?_⟩
  · rw [impurity_gini_eq, hzero]
    norm_num
  · rw [impurity_entropy_eq, hzero]
    norm_num
  · rw [impurity_ce_eq, (listMax_eq_zero_iff counts).mpr h]
    norm_num

/-- Witness for C10 at `counts = [0, 0]`, `n = 7`. -/
theorem impurity_empty_distribution_witness :
    (∀ c ∈ ([0, 0] : List ℕ), c = 0)
    ∧ (impurity Gini [0, 0] 7 = 1
       ∧ impurity Entropy [0, 0] 7 = 0
       ∧ impurity ClassificationError [0, 0] 7 = 1) :=
  ⟨by decide, impurity_empty_distribution [0, 0] 7 (by decide)⟩

/-! ### C9: totality of all four arms -/

/-- C9: `impurity` is total: for every criterion (each of the four match
arms), every counts list (the all-zero one included) and every `n` (`n = 0`
included) it equals a well-defined closed-form real number, and whenever
`n > 0` the Entropy arm only takes `log2` at probabilities `c/n` of non-zero
counts, which are strictly positive — no numeric edge case escapes. -/
theorem impurity_total_closed_forms (crit : SplitCriterion) (counts : List ℕ) (n : ℕ) :
    impurity crit counts n
      = (match crit with
         | Gini =>
             1 - (counts.map
               (fun (c : ℕ) => if 0 < c then ((c : ℝ) / (n : ℝ)) * ((c : ℝ) / (n : ℝ)) else 0)).sum
         | Entropy =>
             -(counts.map
               (fun (c : ℕ) =>
                 if 0 < c then ((c : ℝ) / (n : ℝ)) * Real.logb 2 ((c : ℝ) / (n : ℝ)) else 0)).sum
         | ClassificationError => |1 - (listMax counts : ℝ) / (n : ℝ)|
         | MSE =>
             (((counts.map (fun c => c * c)).sum : ℕ) : ℝ) / (n : ℝ)
               - ((counts.sum : ℝ) / (n : ℝ)) * ((counts.sum : ℝ) / (n : ℝ)))
    ∧ (0 < n → ∀ c ∈ counts, 0 < c → 0 < (c : ℝ) / (n : ℝ)) := by
  constructor
  · cases crit
    · exact impurity_gini_eq counts n
    · exact impurity_entropy_eq counts n
    · exact impurity_ce_eq counts n
    · exact impurity_mse_eq counts n
  · intro hn c _ hc
    have h1 : (0 : ℝ) < (c : ℝ) := by exact_mod_cast hc
    have h2 : (0 : ℝ) < (n : ℝ) := by exact_mod_cast hn
    exact div_pos h1 h2

/-- Witness for C9 at the edge input `crit = Entropy`, `counts = [0, 2]`, `n = 0`. -/
theorem impurity_total_closed_forms_witness :
    impurity Entropy [0, 2] 0
      = -(([0, 2] : List ℕ).map
          (fun (c : ℕ) =>
            if 0 < c then ((c : ℝ) / ((0 : ℕ) : ℝ)) * Real.logb 2 ((c : ℝ) / ((0 : ℕ) : ℝ))
            else 0)).sum
    ∧ ((0 : ℕ) < 0 → ∀ c ∈ ([0, 2] : List ℕ), 0 < c → 0 < (c : ℝ) / ((0 : ℕ) : ℝ)) :=
  impurity_total_closed_forms Entropy [0, 2] 0

/-! ### Generic sum lemmas over lists of reals -/

theorem sum_map_nonneg_eq_zero_iff {α : Type} (l : List α) (f : α → ℝ)
    (h : ∀ x ∈ l, 0 ≤ f x) : (l.map f).sum = 0 ↔ ∀ x ∈ l, f x = 0 := by
  induction l with
  | nil => simp
  | cons x xs ih =>
      have hx : 0 ≤ f x := h x (List.mem_cons_self x xs)
      have hxs : ∀ y ∈ xs, 0 ≤ f y := fun y hy => h y (List.mem_cons_of_mem x hy)
      have hS : 0 ≤ (xs.map f).sum := by
        apply List.sum_nonneg
        intro y hy
        obtain ⟨z, hz, rfl⟩ := List.mem_map.mp hy
        exact hxs z hz
      simp only [List.map_cons, List.sum_cons, List.mem_cons]
      constructor
      · intro heq
        have hfx : f x = 0 := by
          have h1 : f x ≤ 0 := by linarith
          linarith
        have hrest := (ih hxs).mp (by linarith)
        intro y hy
        rcases hy with rfl | hy
        · exact hfx
        · exact hrest y hy
      · intro hall
        have h1 : f x = 0 := hall x (Or.inl rfl)
        have h2 : (xs.map f).sum = 0 := (ih hxs).mpr (fun y hy => hall y (Or.inr hy))
        rw [h1, h2, add_zero]

theorem sum_map_neg {α : Type} (l : List α) (f : α → ℝ) :
    (l.map (fun x => -(f x))).sum = -((l.map f).sum) := by
  induction l with
  | nil => simp
  | cons x xs ih =>
      simp only [List.map_cons, List.sum_cons, ih]
      ring

theorem sum_map_sub {α : Type} (l : List α) (f g : α → ℝ) :
    (l.map (fun x => g x - f x)).sum = (l.map g).sum - (l.map f).sum := by
  induction l with
  | nil => simp
  | cons x xs ih =>
      simp only [List.map_cons, List.sum_cons, ih]
      ring

theorem sum_map_nonpos_eq_zero_iff {α : Type} (l : List α) (f : α → ℝ)
    (h : ∀ x ∈ l, f x ≤ 0) : (l.map f).sum = 0 ↔ ∀ x ∈ l, f x = 0 := by
  have h2 := sum_map_nonneg_eq_zero_iff l (fun x => -(f x))
    (fun x hx => by simpa using h x hx)
  rw [sum_map_neg] at h2
  constructor
  · intro heq x hx
    have h3 : -(f x) = 0 := h2.mp (by rw [heq, neg_zero]) x hx
    linarith
  · intro hall
    have h4 : -((l.map f).sum) = 0 := h2.mpr (fun x hx => by simp [hall x hx])
    linarith

theorem sum_map_nonpos {α : Type} (l : List α) (f : α → ℝ)
    (h : ∀ x ∈ l, f x ≤ 0) : (l.map f).sum ≤ 0 := by
  induction l with
  | nil => simp
  | cons x xs ih =>
      have hx := h x (List.mem_cons_self x xs)
      have hxs := ih (fun y hy => h y (List.mem_cons_of_mem x hy))
      simp only [List.map_cons, List.sum_cons]
      linarith

theorem sum_map_le_of_le {α : Type} (l : List α) (f g : α → ℝ)
    (h : ∀ x ∈ l, f x ≤ g x) : (l.map f).sum ≤ (l.map g).sum := by
  induction l with
  | nil => simp
  | cons x xs ih =>
      have hx := h x (List.mem_cons_self x xs)
      have hxs := ih (fun y hy => h y (List.mem_cons_of_mem x hy))
      simp only [List.map_cons, List.sum_cons]
      linarith

theorem sum_map_eq_iff_of_le {α : Type} (l : List α) (f g : α → ℝ)
    (h : ∀ x ∈ l, f x ≤ g x) :
    (l.map f).sum = (l.map g).sum ↔ ∀ x ∈ l, f x = g x := by
  have hkey := sum_map_nonneg_eq_zero_iff l (fun x => g x - f x)
    (fun x hx => by
      have := h x hx
      simp only []
      linarith)
  rw [sum_map_sub] at hkey
  constructor
  · intro heq x hx
    have h5 : g x - f x = 0 := hkey.mp (by linarith) x hx
    linarith
  · intro hall
    have h6 : (l.map g).sum - (l.map f).sum = 0 :=
      hkey.mpr (fun x hx => by
        have := hall x hx
        simp only []
        linarith)
    linarith

theorem sum_map_div (l : List ℕ) (n : ℕ) :
    (l.map (fun (c : ℕ) => (c : ℝ) / (n : ℝ))).sum = (l.sum : ℝ) / (n : ℝ) := by
  induction l with
  | nil => simp
  | cons x xs ih =>
      simp only [List.map_cons, List.sum_cons, ih]
      push_cast
      rw [add_div]

theorem sum_map_const {α : Type} (l : List α) (x : ℝ) :
    (l.map (fun _ => x)).sum = (l.length : ℝ) * x := by
  induction l with
  | nil => simp
  | cons y ys ih =>
      simp only [List.map_cons, List.sum_cons, List.length_cons, ih]
      push_cast
      ring

/-! ### More ℕ-level helpers -/

theorem mem_le_sum (l : List ℕ) (c : ℕ) (hc : c ∈ l) : c ≤ l.sum :=
  le_trans (le_listMax l c hc) (listMax_le_sum l)

theorem sum_erase_add (l : List ℕ) (c : ℕ) (hc : c ∈ l) :
    l.sum = c + (l.erase c).sum := by
  rw [(List.perm_cons_erase hc).sum_eq, List.sum_cons]

theorem nonzeroCount_erase (l : List ℕ) (c : ℕ) (hc : c ∈ l) (hcpos : 0 < c) :
    nonzeroCount l = nonzeroCount (l.erase c) + 1 := by
  have h := (List.perm_cons_erase hc).countP_eq (fun c => decide (0 < c))
  unfold nonzeroCount at *
  rw [h, List.countP_cons]
  simp [hcpos]

theorem exists_pos_of_nonzeroCount_pos (l : List ℕ) (h : 0 < nonzeroCount l) :
    ∃ c ∈ l, 0 < c := by
  obtain ⟨c, hc, hp⟩ := List.countP_pos.mp h
  exact ⟨c, hc, by simpa using hp⟩

/-- Given `Σ l = n > 0`: exactly one entry is non-zero iff every positive
entry equals `n`. -/
theorem one_nonzero_iff (l : List ℕ) (n : ℕ) (hn : 0 < n) (hsum : l.sum = n) :
    nonzeroCount l = 1 ↔ ∀ c ∈ l, 0 < c → c = n := by
  constructor
  · intro hone c hc hcpos
    have hsplit := sum_erase_add l c hc
    have herase := nonzeroCount_erase l c hc hcpos
    have hz : nonzeroCount (l.erase c) = 0 := by omega
    have hallz : ∀ c' ∈ l.erase c, c' = 0 := (nonzeroCount_eq_zero_iff _).mp hz
    have hzero : (l.erase c).sum = 0 := (nat_sum_eq_zero_iff _).mpr hallz
    omega
  · intro hall
    have hpos : 0 < nonzeroCount l := nonzeroCount_pos_of_sum_pos l (by omega)
    obtain ⟨c, hc, hcpos⟩ := exists_pos_of_nonzeroCount_pos l hpos
    have hcn : c = n := hall c hc hcpos
    have hsplit := sum_erase_add l c hc
    have hrest : (l.erase c).sum = 0 := by omega
    have hallz := (nat_sum_eq_zero_iff _).mp hrest
    have herase := nonzeroCount_erase l c hc hcpos
    have hz : nonzeroCount (l.erase c) = 0 := (nonzeroCount_eq_zero_iff _).mpr hallz
    omega

theorem sum_le_length_mul (l : List ℕ) (m : ℕ) (h : ∀ c ∈ l, c ≤ m) :
    l.sum ≤ l.length * m := by
  induction l with
  | nil => simp
  | cons x xs ih =>
      have hx := h x (List.mem_cons_self x xs)
      have hxs := ih (fun y hy => h y (List.mem_cons_of_mem x hy))
      simp only [List.sum_cons, List.length_cons]
      have hexp : (xs.length + 1) * m = xs.length * m + m := by ring
      omega

theorem all_eq_of_le_of_sum (l : List ℕ) (m : ℕ) (hle : ∀ c ∈ l, c ≤ m)
    (hsum : l.sum = l.length * m) : ∀ c ∈ l, c = m := by
  induction l with
  | nil => simp
  | cons x xs ih =>
      have hx := hle x (List.mem_cons_self x xs)
      have hxs : ∀ c ∈ xs, c ≤ m := fun y hy => hle y (List.mem_cons_of_mem x hy)
      have hbound := sum_le_length_mul xs m hxs
      simp only [List.sum_cons, List.length_cons] at hsum
      have hexp : (xs.length + 1) * m = xs.length * m + m := by ring
      have hxm : x = m := by omega
      have hsum' : xs.sum = xs.length * m := by omega
      intro c hc
      rcases List.mem_cons.mp hc with rfl | hc
      · exact hxm
      · exact ih hxs hsum' c hc

theorem listMax_replicate (k m : ℕ) (hk : 0 < k) :
    listMax (List.replicate k m) = m := by
  induction k with
  | zero => omega
  | succ k ih =>
      rcases Nat.eq_zero_or_pos k with rfl | hkpos
      · simp [listMax]
      · have := ih hkpos
        simp only [List.replicate_succ, listMax, List.foldr_cons] at *
        omega

theorem replicate_length_sum (k m : ℕ) :
    (List.replicate k m).length = k ∧ (List.replicate k m).sum = k * m := by
  constructor
  · exact List.length_replicate k m
  · rw [List.sum_replicate, smul_eq_mul]

/-! ### Zero-impurity characterizations (pure regions) -/

theorem gini_zero_iff (l : List ℕ) (n : ℕ) (hn : 0 < n) (hsum : l.sum = n) :
    impurity Gini l n = 0 ↔ nonzeroCount l = 1 := by
  have hn' : ((n : ℝ)) ≠ 0 := Nat.cast_ne_zero.mpr (by omega)
  rw [impurity_gini_eq, gini_guard_eq_sq, sum_map_sq_div, sub_eq_zero, eq_comm,
    div_eq_one_iff_eq (pow_ne_zero 2 hn')]
  have hcast : ((n : ℝ)) ^ 2 = (((n * n : ℕ)) : ℝ) := by push_cast; ring
  rw [hcast, Nat.cast_inj]
  have hpos := nonzeroCount_pos_of_sum_pos l (by omega)
  rw [← hsum]
  rw [sq_sum_eq_iff]
  omega

theorem entropy_zero_iff (l : List ℕ) (n : ℕ) (hn : 0 < n) (hsum : l.sum = n) :
    impurity Entropy l n = 0 ↔ nonzeroCount l = 1 := by
  have hnr : (0 : ℝ) < (n : ℝ) := by exact_mod_cast hn
  have hterm_nonpos : ∀ c ∈ l,
      (if 0 < c then ((c : ℝ) / (n : ℝ)) * Real.logb 2 ((c : ℝ) / (n : ℝ)) else 0) ≤ 0 := by
    intro c hc
    by_cases hcpos : 0 < c
    · rw [if_pos hcpos]
      have hcn : c ≤ n := by have := mem_le_sum l c hc; omega
      have hp : (0 : ℝ) < (c : ℝ) / (n : ℝ) :=
        div_pos (by exact_mod_cast hcpos) hnr
      have hp1 : (c : ℝ) / (n : ℝ) ≤ 1 := by
        rw [div_le_one hnr]; exact_mod_cast hcn
      have hlog : Real.logb 2 ((c : ℝ) / (n : ℝ)) ≤ 0 :=
        Real.logb_nonpos (by norm_num) hp.le hp1
      exact mul_nonpos_iff.mpr (Or.inl ⟨hp.le, hlog⟩)
    · rw [if_neg hcpos]
  rw [impurity_entropy_eq, neg_eq_zero,
    sum_map_nonpos_eq_zero_iff l _ hterm_nonpos, one_nonzero_iff l n hn hsum]
  constructor
  · intro hall c hc hcpos
    have hterm := hall c hc
    rw [if_pos hcpos] at hterm
    have hp : (0 : ℝ) < (c : ℝ) / (n : ℝ) :=
      div_pos (by exact_mod_cast hcpos) hnr
    rcases mul_eq_zero.mp hterm with hp0 | hlog0
    · exact absurd hp0 (ne_of_gt hp)
    · have hlogn : Real.log ((c : ℝ) / (n : ℝ)) = 0 := by
        have hlog2 : Real.log 2 ≠ 0 := ne_of_gt (Real.log_pos (by norm_num))
        have hdiv : Real.log ((c : ℝ) / (n : ℝ)) / Real.log 2 = 0 := hlog0
        exact (div_eq_zero_iff.mp hdiv).resolve_right hlog2
      rcases Real.log_eq_zero.mp hlogn with h0 | h1 | hneg
      · exact absurd h0 (ne_of_gt hp)
      · have : (c : ℝ) = (n : ℝ) := (div_eq_one_iff_eq (ne_of_gt hnr)).mp h1
        exact_mod_cast this
      · linarith
  · intro hall c hc
    by_cases hcpos : 0 < c
    · rw [if_pos hcpos]
      have hcn : c = n := hall c hc hcpos
      have : (c : ℝ) / (n : ℝ) = 1 := by
        rw [hcn]; exact div_self (ne_of_gt hnr)
      rw [this, Real.logb_one, mul_zero]
    · rw [if_neg hcpos]

theorem listMax_eq_sum_iff (l : List ℕ) (n : ℕ) (hn : 0 < n) (hsum : l.sum = n) :
    listMax l = n ↔ nonzeroCount l = 1 := by
  constructor
  · intro hM
    have hMpos : 0 < listMax l := by omega
    have hmem : listMax l ∈ l := exists_eq_listMax l hMpos
    rw [hM] at hmem
    have hsplit := sum_erase_add l n hmem
    have hrest : (l.erase n).sum = 0 := by omega
    have hz : nonzeroCount (l.erase n) = 0 :=
      (nonzeroCount_eq_zero_iff _).mpr ((nat_sum_eq_zero_iff _).mp hrest)
    have := nonzeroCount_erase l n hmem (by omega)
    omega
  · intro hone
    obtain ⟨c, hc, hcpos, hcsum⟩ := sum_of_one_nonzero l hone
    have hcn : c = n := by omega
    have hub := listMax_le_sum l
    have hlb := le_listMax l c hc
    omega

theorem ce_zero_iff (l : List ℕ) (n : ℕ) (hn : 0 < n) (hsum : l.sum = n) :
    impurity ClassificationError l n = 0 ↔ nonzeroCount l = 1 := by
  have hnr : (0 : ℝ) < (n : ℝ) := by exact_mod_cast hn
  rw [impurity_ce_eq, abs_eq_zero, sub_eq_zero, eq_comm,
    div_eq_one_iff_eq (ne_of_gt hnr), Nat.cast_inj]
  exact listMax_eq_sum_iff l n hn hsum

/-! ### Maximality: helper sums -/

theorem sum_map_div_const {α : Type} (l : List α) (f : α → ℝ) (d : ℝ) :
    (l.map (fun x => f x / d)).sum = (l.map f).sum / d := by
  induction l with
  | nil => simp
  | cons x xs ih =>
      simp only [List.map_cons, List.sum_cons, ih, add_div]

theorem sum_map_mul_const {α : Type} (l : List α) (f : α → ℝ) (d : ℝ) :
    (l.map (fun x => f x * d)).sum = (l.map f).sum * d := by
  induction l with
  | nil => simp
  | cons x xs ih =>
      simp only [List.map_cons, List.sum_cons, ih, add_mul]

/-- Sum of squared deviations from `m`, for a list of `k` naturals summing to
`k * m`: it equals `Σ c² - k m²`. -/
theorem sum_sq_dev (l : List ℕ) (k n m : ℕ) (hlen : l.length = k) (hsum : l.sum = n)
    (hn : n = k * m) :
    ((l.map (fun (c : ℕ) => (c : ℝ))).map (fun x => (x - (m : ℝ)) ^ 2)).sum
      = (l.map (fun (c : ℕ) => ((c : ℝ)) ^ 2)).sum - (k : ℝ) * ((m : ℝ)) ^ 2 := by
  rw [sum_sq_sub_mul]
  have h1 : ((l.map (fun (c : ℕ) => (c : ℝ))).sum) = (l.sum : ℝ) := by
    rw [Nat.cast_list_sum]
  have h2 : ((l.map (fun (c : ℕ) => (c : ℝ))).length) = l.length := List.length_map _ _
  have h3 : ((l.map (fun (c : ℕ) => (c : ℝ))).map (fun x => x ^ 2)).sum
      = (l.map (fun (c : ℕ) => ((c : ℝ)) ^ 2)).sum := by
    rw [List.map_map]; rfl
  rw [h1, h2, h3, hsum, hlen, hn]
  push_cast
  ring

/-- For `k` naturals summing to `k * m`, the sum of squares is at least
`k m²`, with equality exactly for the constant list. -/
theorem sum_sq_ge_uniform (l : List ℕ) (k n m : ℕ) (hlen : l.length = k)
    (hsum : l.sum = n) (hn : n = k * m) :
    (k : ℝ) * ((m : ℝ)) ^ 2 ≤ (l.map (fun (c : ℕ) => ((c : ℝ)) ^ 2)).sum
    ∧ ((l.map (fun (c : ℕ) => ((c : ℝ)) ^ 2)).sum = (k : ℝ) * ((m : ℝ)) ^ 2
        → ∀ c ∈ l, c = m) := by
  have hdev := sum_sq_dev l k n m hlen hsum hn
  have hT0 : 0 ≤ ((l.map (fun (c : ℕ) => (c : ℝ))).map (fun x => (x - (m : ℝ)) ^ 2)).sum := by
    apply List.sum_nonneg
    intro y hy
    obtain ⟨z, _, rfl⟩ := List.mem_map.mp hy
    positivity
  constructor
  · linarith
  · intro heq
    have hz := (sum_map_nonneg_eq_zero_iff (l.map (fun (c : ℕ) => (c : ℝ)))
      (fun x => (x - (m : ℝ)) ^ 2) (fun x _ => by positivity)).mp (by linarith)
    intro c hc
    have hcm : ((c : ℝ) - (m : ℝ)) ^ 2 = 0 :=
      hz ((c : ℕ) : ℝ) (List.mem_map.mpr ⟨c, hc, rfl⟩)
    have : (c : ℝ) = (m : ℝ) := by
      have := sq_eq_zero_iff.mp hcm
      linarith
    exact_mod_cast this

/-! ### Maximality: values at the uniform distribution -/

theorem gini_replicate_value (k m n : ℕ) :
    impurity Gini (List.replicate k m) n
      = 1 - (k : ℝ) * (((m : ℝ) / (n : ℝ)) ^ 2) := by
  rw [impurity_gini_eq, gini_guard_eq_sq, List.map_replicate, List.sum_replicate,
    nsmul_eq_mul]

theorem entropy_replicate_value (k m n : ℕ) (hm : 0 < m) :
    impurity Entropy (List.replicate k m) n
      = -((k : ℝ) * (((m : ℝ) / (n : ℝ)) * Real.logb 2 ((m : ℝ) / (n : ℝ)))) := by
  rw [impurity_entropy_eq, List.map_replicate, if_pos hm, List.sum_replicate,
    nsmul_eq_mul]

theorem ce_replicate_value (k m n : ℕ) (hk : 0 < k) :
    impurity ClassificationError (List.replicate k m) n
      = |1 - (m : ℝ) / (n : ℝ)| := by
  rw [impurity_ce_eq, listMax_replicate k m hk]

/-! ### Maximality: Gini -/

theorem gini_max (l : List ℕ) (k n m : ℕ) (hlen : l.length = k) (hsum : l.sum = n)
    (hn : n = k * m) (hk : 0 < k) (hm : 0 < m) :
    impurity Gini l n ≤ impurity Gini (List.replicate k m) n
    ∧ (impurity Gini l n = impurity Gini (List.replicate k m) n
        → l = List.replicate k m) := by
  have hnpos : 0 < n := by rw [hn]; exact Nat.mul_pos hk hm
  have hnr : (0 : ℝ) < (n : ℝ) := by exact_mod_cast hnpos
  have hform : impurity Gini l n
      = 1 - (l.map (fun (c : ℕ) => ((c : ℝ)) ^ 2)).sum / ((n : ℝ)) ^ 2 := by
    rw [impurity_gini_eq, gini_guard_eq_sq, sum_map_sq_div, cast_sq_sum]
  have hval : impurity Gini (List.replicate k m) n
      = 1 - ((k : ℝ) * ((m : ℝ)) ^ 2) / ((n : ℝ)) ^ 2 := by
    rw [gini_replicate_value, div_pow]
    ring
  obtain ⟨hge, hrig⟩ := sum_sq_ge_uniform l k n m hlen hsum hn
  have hsq : (0 : ℝ) < ((n : ℝ)) ^ 2 := by positivity
  constructor
  · rw [hform, hval]
    have h2 : ((k : ℝ) * ((m : ℝ)) ^ 2) / ((n : ℝ)) ^ 2
        ≤ (l.map (fun (c : ℕ) => ((c : ℝ)) ^ 2)).sum / ((n : ℝ)) ^ 2 :=
      (div_le_div_right hsq).mpr hge
    linarith
  · intro heq
    rw [hform, hval] at heq
    have h3 : (l.map (fun (c : ℕ) => ((c : ℝ)) ^ 2)).sum / ((n : ℝ)) ^ 2
        = ((k : ℝ) * ((m : ℝ)) ^ 2) / ((n : ℝ)) ^ 2 := by linarith
    have h4 : (l.map (fun (c : ℕ) => ((c : ℝ)) ^ 2)).sum = (k : ℝ) * ((m : ℝ)) ^ 2 := by
      field_simp at h3
      exact h3
    have hall := hrig h4
    rw [← hlen]
    exact List.eq_replicate_length.mpr hall

/-! ### Maximality: ClassificationError -/

theorem ce_max (l : List ℕ) (k n m : ℕ) (hlen : l.length = k) (hsum : l.sum = n)
    (hn : n = k * m) (hk : 0 < k) (hm : 0 < m) :
    impurity ClassificationError l n ≤ impurity ClassificationError (List.replicate k m) n
    ∧ (impurity ClassificationError l n = impurity ClassificationError (List.replicate k m) n
        → l = List.replicate k m) := by
  have hnpos : 0 < n := by rw [hn]; exact Nat.mul_pos hk hm
  have hnr : (0 : ℝ) < (n : ℝ) := by exact_mod_cast hnpos
  have hmn : m ≤ n := by
    rw [hn]
    calc m = 1 * m := (one_mul m).symm
    _ ≤ k * m := Nat.mul_le_mul_right m hk
  have hMub : listMax l ≤ n := by
    have := listMax_le_sum l
    omega
  have hMlb : m ≤ listMax l := by
    have hb := sum_le_length_mul l (listMax l) (le_listMax l)
    rw [hlen, hsum, hn] at hb
    exact Nat.le_of_mul_le_mul_left (by omega) hk
  have hforml : impurity ClassificationError l n = 1 - (listMax l : ℝ) / (n : ℝ) := by
    rw [impurity_ce_eq, abs_of_nonneg]
    have : (listMax l : ℝ) / (n : ℝ) ≤ 1 := by
      rw [div_le_one hnr]; exact_mod_cast hMub
    linarith
  have hformu : impurity ClassificationError (List.replicate k m) n
      = 1 - (m : ℝ) / (n : ℝ) := by
    rw [ce_replicate_value k m n hk, abs_of_nonneg]
    have : (m : ℝ) / (n : ℝ) ≤ 1 := by
      rw [div_le_one hnr]; exact_mod_cast hmn
    linarith
  have hdivle : (m : ℝ) / (n : ℝ) ≤ (listMax l : ℝ) / (n : ℝ) :=
    (div_le_div_right hnr).mpr (by exact_mod_cast hMlb)
  constructor
  · rw [hforml, hformu]
    linarith
  · intro heq
    rw [hforml, hformu] at heq
    have hdiv : (listMax l : ℝ) / (n : ℝ) = (m : ℝ) / (n : ℝ) := by linarith
    have hM : listMax l = m := by
      field_simp at hdiv
      exact_mod_cast hdiv
    have hall : ∀ c ∈ l, c = m := by
      apply all_eq_of_le_of_sum l m
      · intro c hc
        have := le_listMax l c hc
        omega
      · rw [hsum, hlen, hn]
    rw [← hlen]
    exact List.eq_replicate_length.mpr hall

/-! ### Glue: attaining the maximum is equivalent to being uniform -/

theorem attains_iff_of (crit : SplitCriterion) (l : List ℕ) (k n m : ℕ)
    (hlen : l.length = k) (hsum : l.sum = n) (hn : n = k * m)
    (hbound : ∀ l' : List ℕ, l'.length = k → l'.sum = n →
      impurity crit l' n ≤ impurity crit (List.replicate k m) n)
    (hrig : impurity crit l n = impurity crit (List.replicate k m) n
      → l = List.replicate k m) :
    AttainsMax crit k n l ↔ l = List.replicate k m := by
  constructor
  · intro hA
    apply hrig
    apply le_antisymm (hbound l hlen hsum)
    exact hA (List.replicate k m) (replicate_length_sum k m).1
      (by rw [(replicate_length_sum k m).2, ← hn])
  · intro hl
    intro l' hl' hs'
    rw [hl]
    exact hbound l' hl' hs'

/-! ### Maximality: Entropy via the Gibbs inequality -/

/-- Pointwise Gibbs inequality: for `p > 0` and `kr > 0`,
`0 ≤ (1/kr - p) + p·ln p + p·ln kr`, with equality only at `p = 1/kr`. -/
theorem gibbs_pointwise (p kr : ℝ) (hp : 0 < p) (hk : 0 < kr) :
    0 ≤ (1 / kr - p) + p * Real.log p + p * Real.log kr
    ∧ ((1 / kr - p) + p * Real.log p + p * Real.log kr = 0 → p = 1 / kr) := by
  have h2 : Real.log (1 / (p * kr)) = -(Real.log p + Real.log kr) := by
    rw [one_div, Real.log_inv, Real.log_mul (ne_of_gt hp) (ne_of_gt hk)]
  have h5 : p * (1 / (p * kr) - 1) = 1 / kr - p := by
    rw [mul_sub, mul_one]
    congr 1
    field_simp
  constructor
  · have h1 : Real.log (1 / (p * kr)) ≤ 1 / (p * kr) - 1 :=
      Real.log_le_sub_one_of_pos (by positivity)
    have h4 := mul_le_mul_of_nonneg_left h1 hp.le
    rw [h2, h5] at h4
    have h6 : p * -(Real.log p + Real.log kr)
        = -(p * Real.log p + p * Real.log kr) := by ring
    rw [h6] at h4
    linarith
  · intro heq
    by_contra hne
    have hne' : 1 / (p * kr) ≠ 1 := by
      intro h1
      apply hne
      have hpk : p * kr = 1 := by
        field_simp at h1
        linarith
      rw [eq_div_iff (ne_of_gt hk)]
      exact hpk
    have hstrict := Real.log_lt_sub_one_of_pos (show (0 : ℝ) < 1 / (p * kr) by positivity) hne'
    have h6 := mul_lt_mul_of_pos_left hstrict hp
    rw [h2, h5] at h6
    have h7 : p * -(Real.log p + Real.log kr)
        = -(p * Real.log p + p * Real.log kr) := by ring
    rw [h7] at h6
    linarith

theorem entropyGap_pos_form (k n c : ℕ) (hc : 0 < c) :
    entropyGap k n c
      = ((1 / (k : ℝ) - (c : ℝ) / (n : ℝ))
          + ((c : ℝ) / (n : ℝ)) * Real.log ((c : ℝ) / (n : ℝ))
          + ((c : ℝ) / (n : ℝ)) * Real.log (k : ℝ)) / Real.log 2 := by
  unfold entropyGap
  rw [if_pos hc]
  simp only [Real.logb]
  ring

theorem entropyGap_nonneg (k n c : ℕ) (hk : 0 < k) (hn : 0 < n) :
    0 ≤ entropyGap k n c := by
  have hkr : (0 : ℝ) < (k : ℝ) := by exact_mod_cast hk
  have hlog2 : (0 : ℝ) < Real.log 2 := Real.log_pos (by norm_num)
  by_cases hc : 0 < c
  · rw [entropyGap_pos_form k n c hc]
    apply div_nonneg _ hlog2.le
    have hp : (0 : ℝ) < (c : ℝ) / (n : ℝ) :=
      div_pos (by exact_mod_cast hc) (by exact_mod_cast hn)
    exact (gibbs_pointwise _ _ hp hkr).1
  · have hc0 : c = 0 := by omega
    subst hc0
    unfold entropyGap
    simp only [Nat.cast_zero, zero_div, zero_mul, add_zero, sub_zero]
    rw [if_neg (lt_irrefl 0), add_zero]
    exact div_nonneg (by positivity) hlog2.le

theorem entropyGap_eq_zero_imp (k n m c : ℕ) (hn : n = k * m) (hk : 0 < k) (hm : 0 < m)
    (h0 : entropyGap k n c = 0) : c = m := by
  have hnpos : 0 < n := by rw [hn]; exact Nat.mul_pos hk hm
  have hkr : (0 : ℝ) < (k : ℝ) := by exact_mod_cast hk
  have hnr : (0 : ℝ) < (n : ℝ) := by exact_mod_cast hnpos
  have hlog2 : (0 : ℝ) < Real.log 2 := Real.log_pos (by norm_num)
  by_cases hc : 0 < c
  · rw [entropyGap_pos_form k n c hc] at h0
    have hE : (1 / (k : ℝ) - (c : ℝ) / (n : ℝ))
        + ((c : ℝ) / (n : ℝ)) * Real.log ((c : ℝ) / (n : ℝ))
        + ((c : ℝ) / (n : ℝ)) * Real.log (k : ℝ) = 0 :=
      (div_eq_zero_iff.mp h0).resolve_right (ne_of_gt hlog2)
    have hp : (0 : ℝ) < (c : ℝ) / (n : ℝ) :=
      div_pos (by exact_mod_cast hc) hnr
    have hpeq : (c : ℝ) / (n : ℝ) = 1 / (k : ℝ) :=
      (gibbs_pointwise _ _ hp hkr).2 hE
    have hcast : (c : ℝ) * (k : ℝ) = (n : ℝ) := by
      field_simp at hpeq
      linarith
    have hck : c * k = n := by exact_mod_cast hcast
    rw [hn, Nat.mul_comm k m] at hck
    exact Nat.eq_of_mul_eq_mul_right hk hck
  · exfalso
    have hc0 : c = 0 := by omega
    subst hc0
    unfold entropyGap at h0
    simp only [Nat.cast_zero, zero_div, zero_mul, add_zero, sub_zero] at h0
    rw [if_neg (lt_irrefl 0), add_zero] at h0
    have hpos : (0 : ℝ) < (1 / (k : ℝ)) / Real.log 2 :=
      div_pos (by positivity) hlog2
    linarith

theorem sum_entropyGap (l : List ℕ) (k n : ℕ) (hlen : l.length = k) (hsum : l.sum = n)
    (hn : 0 < n) (hk : 0 < k) :
    (l.map (entropyGap k n)).sum = Real.logb 2 (k : ℝ) - impurity Entropy l n := by
  have hnr : ((n : ℝ)) ≠ 0 := Nat.cast_ne_zero.mpr (by omega)
  have hkr : ((k : ℝ)) ≠ 0 := Nat.cast_ne_zero.mpr (by omega)
  have hsplit : (l.map (entropyGap k n)).sum
      = (l.map (fun (c : ℕ) => (1 / (k : ℝ) - (c : ℝ) / (n : ℝ)) / Real.log 2)).sum
        + (l.map (fun (c : ℕ) =>
            if 0 < c then ((c : ℝ) / (n : ℝ)) * Real.logb 2 ((c : ℝ) / (n : ℝ)) else 0)).sum
        + (l.map (fun (c : ℕ) => ((c : ℝ) / (n : ℝ)) * Real.logb 2 (k : ℝ))).sum := by
    rw [show l.map (entropyGap k n)
        = l.map (fun (c : ℕ) =>
            ((1 / (k : ℝ) - (c : ℝ) / (n : ℝ)) / Real.log 2
              + (if 0 < c then ((c : ℝ) / (n : ℝ)) * Real.logb 2 ((c : ℝ) / (n : ℝ)) else 0))
            + ((c : ℝ) / (n : ℝ)) * Real.logb 2 (k : ℝ)) from rfl]
    rw [List.sum_map_add, List.sum_map_add]
  have hS1 : (l.map (fun (c : ℕ) => (1 / (k : ℝ) - (c : ℝ) / (n : ℝ)) / Real.log 2)).sum
      = 0 := by
    rw [sum_map_div_const l (fun (c : ℕ) => 1 / (k : ℝ) - (c : ℝ) / (n : ℝ)) (Real.log 2)]
    rw [sum_map_sub l (fun (c : ℕ) => (c : ℝ) / (n : ℝ)) (fun _ => 1 / (k : ℝ))]
    rw [sum_map_const, sum_map_div, hlen, hsum]
    rw [div_self hnr]
    rw [mul_one_div, div_self hkr]
    norm_num
  have hS2 : (l.map (fun (c : ℕ) =>
      if 0 < c then ((c : ℝ) / (n : ℝ)) * Real.logb 2 ((c : ℝ) / (n : ℝ)) else 0)).sum
      = -impurity Entropy l n := by
    rw [impurity_entropy_eq]
    ring
  have hS3 : (l.map (fun (c : ℕ) => ((c : ℝ) / (n : ℝ)) * Real.logb 2 (k : ℝ))).sum
      = Real.logb 2 (k : ℝ) := by
    rw [sum_map_mul_const l (fun (c : ℕ) => (c : ℝ) / (n : ℝ)) (Real.logb 2 (k : ℝ))]
    rw [sum_map_div, hsum, div_self hnr, one_mul]
  rw [hsplit, hS1, hS2, hS3]
  ring

theorem entropy_max (l : List ℕ) (k n m : ℕ) (hlen : l.length = k) (hsum : l.sum = n)
    (hn : n = k * m) (hk : 0 < k) (hm : 0 < m) :
    impurity Entropy l n ≤ impurity Entropy (List.replicate k m) n
    ∧ (impurity Entropy l n = impurity Entropy (List.replicate k m) n
        → l = List.replicate k m) := by
  have hnpos : 0 < n := by rw [hn]; exact Nat.mul_pos hk hm
  have hkr : ((k : ℝ)) ≠ 0 := Nat.cast_ne_zero.mpr (by omega)
  have hmr : ((m : ℝ)) ≠ 0 := Nat.cast_ne_zero.mpr (by omega)
  have huv : impurity Entropy (List.replicate k m) n = Real.logb 2 (k : ℝ) := by
    rw [entropy_replicate_value k m n hm]
    have hmn : (m : ℝ) / (n : ℝ) = ((k : ℝ))⁻¹ := by
      rw [hn]
      push_cast
      field_simp
      ring
    rw [hmn, Real.logb_inv]
    field_simp
  have hsg := sum_entropyGap l k n hlen hsum hnpos hk
  have hnn : 0 ≤ (l.map (entropyGap k n)).sum := by
    apply List.sum_nonneg
    intro x hx
    obtain ⟨c, _, rfl⟩ := List.mem_map.mp hx
    exact entropyGap_nonneg k n c hk hnpos
  constructor
  · rw [huv]
    linarith
  · intro heq
    rw [huv] at heq
    have hz : (l.map (entropyGap k n)).sum = 0 := by linarith
    have hall := (sum_map_nonneg_eq_zero_iff l (entropyGap k n)
      (fun c _ => entropyGap_nonneg k n c hk hnpos)).mp hz
    have hallm : ∀ c ∈ l, c = m :=
      fun c hc => entropyGap_eq_zero_imp k n m c hn hk hm (hall c hc)
    rw [← hlen]
    exact List.eq_replicate_length.mpr hallm

/-! ### C7: purity and maximality characterizations -/

/-- C7 (amended): for every non-empty label-count distribution `counts` with
`Σ counts = n > 0` and `counts.length = k`, each of the Gini, Entropy and
ClassificationError arms returns 0 iff exactly one entry of `counts` is
non-zero; and, **provided `k` divides `n`**, each arm attains its maximum over
all distributions of `n` samples into `k` classes exactly at the uniform
distribution `replicate k (n/k)`. -/
theorem impurity_zero_iff_pure_and_max_iff_uniform (counts : List ℕ) (k n : ℕ)
    (hlen : counts.length = k) (hsum : counts.sum = n) (hn : 0 < n) :
    (impurity Gini counts n = 0 ↔ nonzeroCount counts = 1)
    ∧ (impurity Entropy counts n = 0 ↔ nonzeroCount counts = 1)
    ∧ (impurity ClassificationError counts n = 0 ↔ nonzeroCount counts = 1)
    ∧ (k ∣ n →
        ((AttainsMax Gini k n counts ↔ counts = List.replicate k (n / k))
         ∧ (AttainsMax Entropy k n counts ↔ counts = List.replicate k (n / k))
         ∧ (AttainsMax ClassificationError k n counts
             ↔ counts = List.replicate k (n / k)))) := by
  refine ⟨gini_zero_iff counts n hn hsum, entropy_zero_iff counts n hn hsum,
    ce_zero_iff counts n hn hsum, fun hdvd => ?_⟩
  have hk : 0 < k := by
    rcases Nat.eq_zero_or_pos k with rfl | hkpos
    · exfalso
      have hnil : counts = [] := List.length_eq_zero.mp hlen
      rw [hnil] at hsum
      simp at hsum
      omega
    · exact hkpos
  have hcancel : n / k * k = n := Nat.div_mul_cancel hdvd
  have hnm : n = k * (n / k) := by rw [Nat.mul_comm, hcancel]
  have hm : 0 < n / k := by
    rcases Nat.eq_zero_or_pos (n / k) with h0 | h
    · rw [h0, Nat.mul_zero] at hnm; omega
    · exact h
  refine ⟨?_, ?_, ?_⟩
  · exact attains_iff_of Gini counts k n (n / k) hlen hsum hnm
      (fun l' hl hs => (gini_max l' k n (n / k) hl hs hnm hk hm).1)
      (fun heq => (gini_max counts k n (n / k) hlen hsum hnm hk hm).2 heq)
  · exact attains_iff_of Entropy counts k n (n / k) hlen hsum hnm
      (fun l' hl hs => (entropy_max l' k n (n / k) hl hs hnm hk hm).1)
      (fun heq => (entropy_max counts k n (n / k) hlen hsum hnm hk hm).2 heq)
  · exact attains_iff_of ClassificationError counts k n (n / k) hlen hsum hnm
      (fun l' hl hs => (ce_max l' k n (n / k) hl hs hnm hk hm).1)
      (fun heq => (ce_max counts k n (n / k) hlen hsum hnm hk hm).2 heq)

/-- Witness for the amended C7 at `counts = [2]`, `k = 1`, `n = 2`. -/
theorem impurity_zero_iff_pure_and_max_iff_uniform_witness :
    (([2] : List ℕ).length = 1 ∧ ([2] : List ℕ).sum = 2 ∧ (0 : ℕ) < 2)
    ∧ ((impurity Gini [2] 2 = 0 ↔ nonzeroCount [2] = 1)
       ∧ (impurity Entropy [2] 2 = 0 ↔ nonzeroCount [2] = 1)
       ∧ (impurity ClassificationError [2] 2 = 0 ↔ nonzeroCount [2] = 1)
       ∧ (1 ∣ 2 →
           ((AttainsMax Gini 1 2 [2] ↔ [2] = List.replicate 1 (2 / 1))
            ∧ (AttainsMax Entropy 1 2 [2] ↔ [2] = List.replicate 1 (2 / 1))
            ∧ (AttainsMax ClassificationError 1 2 [2]
                ↔ [2] = List.replicate 1 (2 / 1))))) :=
  ⟨⟨rfl, rfl, by norm_num⟩,
    impurity_zero_iff_pure_and_max_iff_uniform [2] 1 2 rfl rfl (by norm_num)⟩

/-- C7 counterexample: with `n = 3` samples in `k = 2` classes (so `k ∤ n`),
the distribution `[1, 2]` attains the maximal Gini impurity among all
distributions of 3 samples into 2 classes, yet it is not uniform — so the
claim's "attains its maximum exactly when uniformly distributed" is false as
stated. -/
theorem attainsMax_not_uniform_counterexample :
    ([1, 2] : List ℕ).length = 2 ∧ ([1, 2] : List ℕ).sum = 3 ∧ ((0 : ℕ) < 3)
    ∧ AttainsMax Gini 2 3 [1, 2]
    ∧ (∀ v : ℕ, [1, 2] ≠ List.replicate 2 v) := by
  refine ⟨rfl, rfl, by norm_num, ?_, ?_⟩
  · intro l' hlen hsum
    rcases l' with _ | ⟨a, _ | ⟨b, _ | ⟨c, t⟩⟩⟩
    · simp at hlen
    · simp at hlen
    · simp only [List.sum_cons, List.sum_nil, add_zero] at hsum
      have hab : a + b = 3 := hsum
      have hkey : 5 ≤ a * a + b * b := by
        have ha3 : a ≤ 3 := by omega
        have hb3 : b ≤ 3 := by omega
        interval_cases a <;> interval_cases b <;> omega
      have hkeyr : (5 : ℝ) ≤ (a : ℝ) ^ 2 + (b : ℝ) ^ 2 := by
        have : ((5 : ℕ) : ℝ) ≤ ((a * a + b * b : ℕ) : ℝ) := by exact_mod_cast hkey
        push_cast at this
        nlinarith [this]
      rw [impurity_gini_eq, gini_guard_eq_sq, impurity_gini_eq, gini_guard_eq_sq]
      simp only [List.map_cons, List.map_nil, List.sum_cons, List.sum_nil, add_zero]
      have hdiva : ((a : ℝ) / 3) ^ 2 = (a : ℝ) ^ 2 / 9 := by
        rw [div_pow]; norm_num
      have hdivb : ((b : ℝ) / 3) ^ 2 = (b : ℝ) ^ 2 / 9 := by
        rw [div_pow]; norm_num
      push_cast
      rw [hdiva, hdivb]
      norm_num
      linarith
    · simp at hlen
  · intro v h
    simp only [List.replicate_succ, List.replicate_zero] at h
    simp at h
    omega

end Smartcore
